import Mathlib

/-!
Verification of the version-resolution engine of `updates.js`.

The program under study decides, per dependency, which published version
should replace the currently declared semver range and how the range string
is rewritten.  The core functions modelled here are `findVersion`,
`findNewVersion`, `updateRange`, `isRangePrerelease`, `isVersionPrerelease`,
`rangeToVersion` (via `semver.coerce`) and the per-dependency result handler
of the `Promise.all` continuation.

The `semver` npm library is an external dependency of the program (it is not
part of the repository's source).  Its primitives used by `updates.js`
(`parse`, `coerce`, `diff`, `gt`, `gte`) are embedded below with their
documented semantics (semver 5/6 era: `diff` compares the two parsed
versions after an equality check, prefixing `pre` when either side carries a
prerelease tag; `coerce` extracts the first `digits(.digits(.digits)?)?`
group of a string and drops any prerelease tag).

Modelling conventions:
* Published versions are represented post-parse as `SemVer` values: the
  program filters `Object.keys(data.versions)` through `semver.valid` and
  immediately re-parses every survivor, so the string round-trip is dropped.
  Build metadata is ignored by every semver comparison involved and is not
  modelled.
* `data.time` is modelled as an optional total map `SemVer → Int`;
  `new Date(...).getTime()` values that are missing or invalid (`NaN`) are
  modelled as negative numbers, which the code's `date >= 0` guard rejects
  exactly as JS rejects `NaN`.
* Ranges and versions handed to the string-level helpers are plain strings;
  regex work is done on `List Char`.  JS `.` (no dotAll) excludes the four
  line terminators, which are modelled in `isNL`.
* Where the JS code would throw a `TypeError` (comparing against the `null`
  coercion of an uncoercible, non-wildcard range such as `"x"`), the model
  returns `none`; every claim below concerns coercible or wildcard ranges.
* `String.prototype.replace` substitution patterns (`$&` etc.) are not
  modelled: the replacement string is always a semver version or `"*"`,
  which never contains `$`.
-/

/-- A prerelease identifier: numeric (`2` in `beta.2`) or alphanumeric
(`beta`), mirroring node-semver's parsed identifiers. -/
inductive PreId where
  | num (n : Nat)
  | str (s : List Char)
deriving DecidableEq

/-- A parsed semver version: `major.minor.patch` plus prerelease
identifiers.  Build metadata is irrelevant to every comparison used by the
program and is omitted. -/
structure SemVer where
  major : Nat
  minor : Nat
  patch : Nat
  prerelease : List PreId
deriving DecidableEq

/-- Three-way comparison on `Nat`, the primitive of semver's
`compareIdentifiers` for numeric identifiers. -/
def cmpN (a b : Nat) : Ordering :=
  if a < b then Ordering.lt else if b < a then Ordering.gt else Ordering.eq

/-- Lexicographic three-way comparison of character lists by code point,
modelling the JS `<`/`>` comparison on strings. -/
def cmpChars : List Char → List Char → Ordering
  | [], [] => Ordering.eq
  | [], _ :: _ => Ordering.lt
  | _ :: _, [] => Ordering.gt
  | a :: as, b :: bs =>
    match cmpN a.toNat b.toNat with
    | Ordering.eq => cmpChars as bs
    | o => o

/-- node-semver's `compareIdentifiers`: numeric identifiers compare
numerically and sort before alphanumeric ones; alphanumeric identifiers
compare as strings. -/
def compareIds : PreId → PreId → Ordering
  | PreId.num a, PreId.num b => cmpN a b
  | PreId.num _, PreId.str _ => Ordering.lt
  | PreId.str _, PreId.num _ => Ordering.gt
  | PreId.str a, PreId.str b => cmpChars a b

/-- The identifier-by-identifier loop of node-semver's `comparePre`: a list
that runs out first is smaller. -/
def cmpPreLoop : List PreId → List PreId → Ordering
  | [], [] => Ordering.eq
  | [], _ :: _ => Ordering.lt
  | _ :: _, [] => Ordering.gt
  | a :: as, b :: bs =>
    match compareIds a b with
    | Ordering.eq => cmpPreLoop as bs
    | o => o

/-- node-semver's `comparePre`: a version without prerelease identifiers has
higher precedence than one with; two nonempty lists compare
lexicographically. -/
def comparePre (a b : List PreId) : Ordering :=
  match a, b with
  | [], [] => Ordering.eq
  | [], _ :: _ => Ordering.gt
  | _ :: _, [] => Ordering.lt
  | _ :: _, _ :: _ => cmpPreLoop a b

/-- node-semver's `compareMain`: major, then minor, then patch. -/
def compareMain (a b : SemVer) : Ordering :=
  if a.major < b.major then Ordering.lt
  else if b.major < a.major then Ordering.gt
  else if a.minor < b.minor then Ordering.lt
  else if b.minor < a.minor then Ordering.gt
  else if a.patch < b.patch then Ordering.lt
  else if b.patch < a.patch then Ordering.gt
  else Ordering.eq

/-- node-semver's `compare`: main triple first, prerelease list as
tie-break. -/
def compareSemVer (a b : SemVer) : Ordering :=
  match compareMain a b with
  | Ordering.eq => comparePre a.prerelease b.prerelease
  | o => o

/-- `semver.gt`. -/
def svGt (a b : SemVer) : Bool :=
  match compareSemVer a b with
  | Ordering.gt => true
  | _ => false

/-- `semver.gte`. -/
def svGte (a b : SemVer) : Bool :=
  match compareSemVer a b with
  | Ordering.lt => false
  | _ => true

/-- The semver-diff categories returned by `semver.diff`. -/
inductive DiffClass where
  | major
  | premajor
  | minor
  | preminor
  | patch
  | prepatch
  | prerelease
deriving DecidableEq

/-- node-semver's `diff` (semver 5/6): `null` when the versions are equal,
otherwise the first differing component of `major`/`minor`/`patch`,
prefixed with `pre` when either version carries a prerelease tag, and
`prerelease` when the main triples agree.  (The `undefined` fall-through of
the JS code is unreachable: equal triples with equal prerelease lists were
already caught by the equality check.) -/
def svDiff (a b : SemVer) : Option DiffClass :=
  if compareSemVer a b = Ordering.eq then none
  else
    let pre := !(a.prerelease.isEmpty && b.prerelease.isEmpty)
    if a.major ≠ b.major then some (if pre then DiffClass.premajor else DiffClass.major)
    else if a.minor ≠ b.minor then some (if pre then DiffClass.preminor else DiffClass.minor)
    else if a.patch ≠ b.patch then some (if pre then DiffClass.prepatch else DiffClass.patch)
    else if pre then some DiffClass.prerelease
    else none

/-- `diff.replace(/^pre/, "")` on a diff class.  On `prerelease` the JS
expression yields the string `"release"`, which can never be a member of the
`semvers` policy list (`patch`/`minor`/`major`); the only call site guards
with `diff !== "prerelease"`, so the identity result chosen here is
observationally equal. -/
def stripPre : DiffClass → DiffClass
  | DiffClass.premajor => DiffClass.major
  | DiffClass.preminor => DiffClass.minor
  | DiffClass.prepatch => DiffClass.patch
  | d => d

/-- `semver.coerce(parsed.version).version` applied to an already-valid
version: the coercion keeps the main triple and drops the prerelease tag. -/
def coerceV (x : SemVer) : SemVer :=
  { x with prerelease := [] }

/-- `semver.coerce` on an arbitrary string (modelled on its character
list): find the first digit, read `major(.minor(.patch)?)?` with maximal
digit runs, default missing components to `0`, and drop everything else.
(The 16-digit component cap of the library regex is not modelled; no claim
involves components of that size.) -/
def digitsToNat (ds : List Char) : Nat :=
  ds.foldl (fun n c => n * 10 + (c.toNat - 48)) 0

/-- Read the `major(.minor(.patch)?)?` group starting at a digit. -/
def coerceHere (s : List Char) : SemVer :=
  let d1 := s.takeWhile Char.isDigit
  let r1 := s.dropWhile Char.isDigit
  match r1 with
  | '.' :: r2 =>
    let d2 := r2.takeWhile Char.isDigit
    if d2 = [] then ⟨digitsToNat d1, 0, 0, []⟩
    else
      let r3 := r2.dropWhile Char.isDigit
      match r3 with
      | '.' :: r4 =>
        let d3 := r4.takeWhile Char.isDigit
        if d3 = [] then ⟨digitsToNat d1, digitsToNat d2, 0, []⟩
        else ⟨digitsToNat d1, digitsToNat d2, digitsToNat d3, []⟩
      | _ => ⟨digitsToNat d1, digitsToNat d2, 0, []⟩
  | _ => ⟨digitsToNat d1, 0, 0, []⟩

/-- `semver.coerce` scan: first position holding a digit wins. -/
def coerceL : List Char → Option SemVer
  | [] => none
  | c :: t => if c.isDigit then some (coerceHere (c :: t)) else coerceL t

/-- `rangeToVersion` from `updates.js`: `semver.coerce(range).version`,
`null` (here `none`) when the range holds no digits. -/
def rangeToVersion (range : String) : Option SemVer :=
  coerceL range.toList

/-- The four JS line terminators excluded by `.` without the `s` flag. -/
def isNL (c : Char) : Bool :=
  c = '\n' || c = '\r' || c = Char.ofNat 8232 || c = Char.ofNat 8233

/-- One attempt of the test regex `/[0-9]+\.[0-9]+\.[0-9]+-.+/` anchored at
the head of the list: maximal digit run, literal dot, twice more, a dash and
at least one non-terminator character. -/
def preAt (s : List Char) : Bool :=
  let d1 := s.takeWhile Char.isDigit
  if d1 = [] then false
  else
    match s.dropWhile Char.isDigit with
    | '.' :: r2 =>
      let d2 := r2.takeWhile Char.isDigit
      if d2 = [] then false
      else
        match r2.dropWhile Char.isDigit with
        | '.' :: r4 =>
          let d3 := r4.takeWhile Char.isDigit
          if d3 = [] then false
          else
            match r4.dropWhile Char.isDigit with
            | '-' :: c :: _ => !isNL c
            | _ => false
        | _ => false
    | _ => false

/-- Scan of `preAt` over every start position. -/
def preTest : List Char → Bool
  | [] => false
  | c :: t => preAt (c :: t) || preTest t

/-- `isRangePrerelease` from `updates.js`:
`/[0-9]+\.[0-9]+\.[0-9]+-.+/.test(range)` — purely textual, because
coercion drops prerelease tags. -/
def isRangePrerelease (range : String) : Bool :=
  preTest range.toList

/-- Registry metadata snapshot for one package: the valid published
versions (post-parse, see the header), the optional publish-time map, and
the `dist-tags.latest` pointer. -/
structure PackageData where
  versions : List SemVer
  time : Option (SemVer → Int)
  latest : SemVer

/-- `(new Date(data.time[version])).getTime()` in the branch where `time`
is present: missing or unparsable entries are negative (the model of
`NaN`). -/
def timeVal (data : PackageData) (ver : SemVer) : Int :=
  match data.time with
  | none => -1
  | some f => f ver

/-- The per-package options record built by the `Promise.all` handler:
`{usePre, useRel, useGreatest, semvers, range}`. -/
structure Opts where
  usePre : Bool
  useRel : Bool
  useGreatest : Bool
  semvers : List DiffClass
  range : String

/-- The `semvers` extension step at the top of `findVersion`: when
prereleases are admitted, add `prerelease` and the `pre` variant of each
ceiling class already present. -/
def extendSemvers (s : List DiffClass) (usePre : Bool) : List DiffClass :=
  if usePre then
    (((s ++ [DiffClass.prerelease])
      ++ (if DiffClass.patch ∈ s then [DiffClass.prepatch] else []))
      ++ (if DiffClass.minor ∈ s then [DiffClass.preminor] else []))
      ++ (if DiffClass.major ∈ s then [DiffClass.premajor] else [])
  else s

/-- The `for (const version of versions)` loop of `findVersion`, with the
running candidate `tempVersion` and running best timestamp `tempDate`
threaded explicitly.  `usePre` and `semvers` are the values computed once
before the loop. -/
def findVersionLoop (data : PackageData) (opts : Opts) (usePre : Bool)
    (semvers : List DiffClass) :
    List SemVer → SemVer → Int → SemVer
  | [], tempVersion, _ => tempVersion
  | ver :: rest, tempVersion, tempDate =>
    if !ver.prerelease.isEmpty && (!usePre || opts.useRel) then
      findVersionLoop data opts usePre semvers rest tempVersion tempDate
    else
      match svDiff tempVersion ver with
      | none => findVersionLoop data opts usePre semvers rest tempVersion tempDate
      | some d =>
        if d ∈ semvers then
          if opts.useGreatest || data.time.isNone then
            if svGte (coerceV ver) tempVersion then
              findVersionLoop data opts usePre semvers rest ver tempDate
            else
              findVersionLoop data opts usePre semvers rest tempVersion tempDate
          else
            let date := timeVal data ver
            if date ≥ 0 ∧ date > tempDate then
              findVersionLoop data opts usePre semvers rest ver date
            else
              findVersionLoop data opts usePre semvers rest tempVersion tempDate
        else
          findVersionLoop data opts usePre semvers rest tempVersion tempDate

/-- `findVersion(data, versions, opts)`.  The initial candidate is the
coerced baseline of the range; when the range is uncoercible the JS loop
would throw on the first `semver.diff(null, …)` (and `tempVersion || null`
is `null` on the empty list), modelled uniformly as `none`. -/
def findVersion (data : PackageData) (versions : List SemVer) (opts : Opts) :
    Option SemVer :=
  match rangeToVersion opts.range with
  | none => none
  | some tempVersion =>
    let usePre := isRangePrerelease opts.range || opts.usePre
    some (findVersionLoop data opts usePre (extendSemvers opts.semvers usePre)
      versions tempVersion 0)

/-- The result of `findNewVersion`: the wildcard short-circuit or a
version. -/
inductive NewVer where
  | star
  | v (x : SemVer)
deriving DecidableEq

/-- `findNewVersion(data, opts)`: wildcard short-circuit, `findVersion`,
then the decision rules in source order (prerelease track, release-only
downgrade, prerelease graduation, downgrade refusal, ceiling check of the
`latest` dist-tag, release-only guard on a prerelease `latest`, default to
`latest`). -/
def findNewVersion (data : PackageData) (opts : Opts) : Option NewVer :=
  if opts.range = "*" then some NewVer.star
  else
    let versions := data.versions
    let version? := findVersion data versions opts
    if opts.useGreatest then version?.map NewVer.v
    else
      match version? with
      | none => none
      | some version =>
        match rangeToVersion opts.range with
        | none => none
        | some oldVersion =>
        let latestTag := data.latest
        let oldIsPre := isRangePrerelease opts.range
        let newIsPre := !version.prerelease.isEmpty
        let isGreater := svGt version oldVersion
        if (!opts.useRel && opts.usePre) || (oldIsPre && newIsPre) then
          some (NewVer.v version)
        else if opts.useRel && !isGreater && oldIsPre && !newIsPre then
          some (NewVer.v version)
        else if oldIsPre && !newIsPre && isGreater then
          some (NewVer.v version)
        else if oldIsPre && !newIsPre && !isGreater then
          none
        else
          match svDiff oldVersion latestTag with
          | some d =>
            if d ≠ DiffClass.prerelease ∧ stripPre d ∉ opts.semvers then
              some (NewVer.v version)
            else if opts.useRel && !latestTag.prerelease.isEmpty then
              some (NewVer.v version)
            else
              some (NewVer.v latestTag)
          | none =>
            if opts.useRel && !latestTag.prerelease.isEmpty then
              some (NewVer.v version)
            else
              some (NewVer.v latestTag)

/-- Instrumentation of `findVersionLoop` following the same control flow:
the list of versions that reach the comparison step (not skipped as
prereleases, diff defined and inside the accepted set).  This is the
formal counterpart of the spec's "qualifying versions"; it mirrors the
source loop because qualification is evaluated against the running
candidate. -/
def comparedVersions (data : PackageData) (opts : Opts) (usePre : Bool)
    (semvers : List DiffClass) :
    List SemVer → SemVer → Int → List SemVer
  | [], _, _ => []
  | ver :: rest, tempVersion, tempDate =>
    if !ver.prerelease.isEmpty && (!usePre || opts.useRel) then
      comparedVersions data opts usePre semvers rest tempVersion tempDate
    else
      match svDiff tempVersion ver with
      | none => comparedVersions data opts usePre semvers rest tempVersion tempDate
      | some d =>
        if d ∈ semvers then
          ver ::
            (if opts.useGreatest || data.time.isNone then
              if svGte (coerceV ver) tempVersion then
                comparedVersions data opts usePre semvers rest ver tempDate
              else
                comparedVersions data opts usePre semvers rest tempVersion tempDate
            else
              let date := timeVal data ver
              if date ≥ 0 ∧ date > tempDate then
                comparedVersions data opts usePre semvers rest ver date
              else
                comparedVersions data opts usePre semvers rest tempVersion tempDate)
        else
          comparedVersions data opts usePre semvers rest tempVersion tempDate

/-- One match attempt of `/[0-9]+\.[0-9]+\.[0-9]+(-.+)?/` anchored at the
head of the list, third stage: at the second literal dot.  Returns the
matched text and the remainder. -/
def matchAfterTwo (d1 d2 : List Char) (u : List Char) :
    Option (List Char × List Char) :=
  match u with
  | '.' :: r4 =>
    let d3 := r4.takeWhile Char.isDigit
    if d3 = [] then none
    else
      let r5 := r4.dropWhile Char.isDigit
      let tok := d1 ++ '.' :: d2 ++ '.' :: d3
      match r5 with
      | '-' :: r6 =>
        let tl := r6.takeWhile (fun c => !isNL c)
        if tl = [] then some (tok, r5)
        else some (tok ++ '-' :: tl, r6.dropWhile (fun c => !isNL c))
      | _ => some (tok, r5)
  | _ => none

/-- Second stage of the match attempt: at the first literal dot. -/
def matchAfterOne (d1 : List Char) (u : List Char) :
    Option (List Char × List Char) :=
  match u with
  | '.' :: r2 =>
    let d2 := r2.takeWhile Char.isDigit
    if d2 = [] then none
    else matchAfterTwo d1 d2 (r2.dropWhile Char.isDigit)
  | _ => none

/-- A single attempt of `/[0-9]+\.[0-9]+\.[0-9]+(-.+)?/` at the head of
`s`: a maximal digit run (backtracking inside a run cannot produce the
required dot), a dot, twice more, then the greedy optional `-.+` group,
which consumes to the first line terminator and participates only when at
least one character follows the dash. -/
def matchVer (s : List Char) : Option (List Char × List Char) :=
  let d1 := s.takeWhile Char.isDigit
  if d1 = [] then none
  else matchAfterOne d1 (s.dropWhile Char.isDigit)

/-- Fuelled global-replace scanner for
`range.replace(/[0-9]+\.[0-9]+\.[0-9]+(-.+)?/g, version)`: try a match at
every position left to right, substituting `v` for each match and resuming
after it.  Each step consumes at least one character, so fuel equal to the
length of the list is sufficient; the fuel only makes the recursion
structural. -/
def replaceAllF (v : List Char) : Nat → List Char → List Char
  | _, [] => []
  | 0, s => s
  | Nat.succ fuel, c :: t =>
    match matchVer (c :: t) with
    | some (_, r) => v ++ replaceAllF v fuel r
    | none => c :: replaceAllF v fuel t

/-- The global replace with adequate fuel. -/
def replaceAll (v s : List Char) : List Char :=
  replaceAllF v s.length s

/-- `updateRange(range, version)` from `updates.js`:
`range.replace(/[0-9]+\.[0-9]+\.[0-9]+(-.+)?/g, version)`. -/
def updateRange (range version : String) : String :=
  String.mk (replaceAll version.toList range.toList)

/-- Shape of the remainder after a regex match: it cannot start with a
digit (digit runs are maximal), and it can start with `-` only when the
optional `-.+` group failed, i.e. when nothing or a line terminator
follows the dash. -/
def okRest : List Char → Bool
  | [] => true
  | c :: t =>
    if c.isDigit then false
    else if c = '-' then
      match t with
      | [] => true
      | c2 :: _ => isNL c2
    else true

/-- Whether a list starts with something other than a digit (vacuously true
when empty). -/
def headNondigit : List Char → Bool
  | [] => true
  | c :: _ => !c.isDigit

/-- Whether a list begins with a literal dot followed by at least one
digit — the shape that lets a match attempt continue past a digit run. -/
def dotDigit : List Char → Bool
  | '.' :: r => !(r.takeWhile Char.isDigit).isEmpty
  | _ => false

/-- Canonical failure predicate of `matchAfterOne`, independent of the
digits read so far: the attempt dies either immediately (no `.digit`) or
right after the second digit run (no second `.digit`). -/
def mAONone (u : List Char) : Bool :=
  match u with
  | '.' :: r2 =>
    if r2.takeWhile Char.isDigit = [] then true
    else !dotDigit (r2.dropWhile Char.isDigit)
  | _ => true

/-- Render a prerelease identifier back to text, as `semver.parse`
normalises it. -/
def renderId : PreId → String
  | PreId.num n => Nat.repr n
  | PreId.str s => String.mk s

/-- Render a parsed version back to its normalised string. -/
def renderVer (x : SemVer) : String :=
  let base := Nat.repr x.major ++ "." ++ Nat.repr x.minor ++ "." ++ Nat.repr x.patch
  match x.prerelease with
  | [] => base
  | ids => base ++ "-" ++ String.intercalate "." (ids.map renderId)

/-- The string the `Promise.all` handler hands to `updateRange`: the
selected version, or the literal `"*"` of the wildcard short-circuit. -/
def renderNewVer : NewVer → String
  | NewVer.star => "*"
  | NewVer.v x => renderVer x

/-- The per-dependency tail of the `Promise.all` handler: compute
`findNewVersion`, rewrite the range, and drop the entry (`none`) when there
is no new version or the rewritten range equals the old one; otherwise keep
the new range. -/
def resolveDep (data : PackageData) (opts : Opts) : Option String :=
  match findNewVersion data opts with
  | none => none
  | some nv =>
    let newRange := updateRange opts.range (renderNewVer nv)
    if opts.range = newRange then none else some newRange

/-- The handler applied across the fetched batch: the emitted result set,
as `(old range, new range)` pairs of the entries that were kept. -/
def runAll (items : List (PackageData × Opts)) : List (String × String) :=
  items.filterMap fun it =>
    (resolveDep it.1 it.2).map fun nr => (it.2.range, nr)

/-! ## Helper lemmas -/

theorem coerceHere_prerelease (s : List Char) : (coerceHere s).prerelease = [] := by
  simp only [coerceHere]
  split
  · split
    · rfl
    · split
      · split
        · rfl
        · rfl
      · rfl
  · rfl

theorem coerceL_prerelease :
    ∀ (l : List Char) (x : SemVer), coerceL l = some x → x.prerelease = [] := by
  intro l
  induction l with
  | nil => intro x h; simp [coerceL] at h
  | cons c t ih =>
    intro x h
    simp only [coerceL] at h
    split at h
    · cases h; exact coerceHere_prerelease _
    · exact ih x h

theorem rangeToVersion_prerelease {r : String} {x : SemVer}
    (h : rangeToVersion r = some x) : x.prerelease = [] :=
  coerceL_prerelease _ _ h

theorem findVersionLoop_time_congr (d₁ d₂ : PackageData) (opts : Opts) (u : Bool)
    (s : List DiffClass) (ht : d₁.time = d₂.time) :
    ∀ (vs : List SemVer) (temp : SemVer) (td : Int),
      findVersionLoop d₁ opts u s vs temp td = findVersionLoop d₂ opts u s vs temp td := by
  intro vs
  induction vs with
  | nil => intro temp td; rfl
  | cons ver rest ih =>
    intro temp td
    simp only [findVersionLoop, timeVal, ht]
    split
    · exact ih _ _
    · split
      · exact ih _ _
      · split
        · split
          · split
            · exact ih _ _
            · exact ih _ _
          · split
            · exact ih _ _
            · exact ih _ _
        · exact ih _ _

theorem findVersionLoop_keeps_release (data : PackageData) (opts : Opts) (u : Bool)
    (s : List DiffClass) (hrel : opts.useRel = true) :
    ∀ (vs : List SemVer) (temp : SemVer) (td : Int), temp.prerelease = [] →
      (findVersionLoop data opts u s vs temp td).prerelease = [] := by
  intro vs
  induction vs with
  | nil => intro temp td h; exact h
  | cons ver rest ih =>
    intro temp td h
    simp only [findVersionLoop]
    split
    · exact ih _ _ h
    · rename_i hskip
      have hver : ver.prerelease = [] := by
        cases hpre : ver.prerelease with
        | nil => rfl
        | cons a l => exact absurd (by simp [hpre, hrel]) hskip
      split
      · exact ih _ _ h
      · split
        · split
          · split
            · exact ih _ _ hver
            · exact ih _ _ h
          · split
            · exact ih _ _ hver
            · exact ih _ _ h
        · exact ih _ _ h

theorem findVersion_some_prerelease (data : PackageData) (versions : List SemVer)
    (opts : Opts) (version : SemVer) (hrel : opts.useRel = true)
    (h : findVersion data versions opts = some version) : version.prerelease = [] := by
  unfold findVersion at h
  cases hc : rangeToVersion opts.range with
  | none => rw [hc] at h; cases h
  | some b =>
    rw [hc] at h
    simp only [Option.some.injEq] at h
    subst h
    exact findVersionLoop_keeps_release data opts _ _ hrel versions b 0
      (rangeToVersion_prerelease hc)

theorem resolveDep_some_ne (data : PackageData) (opts : Opts) (nr : String)
    (h : resolveDep data opts = some nr) : nr ≠ opts.range := by
  unfold resolveDep at h
  cases hf : findNewVersion data opts with
  | none => rw [hf] at h; cases h
  | some nv =>
    rw [hf] at h
    simp only at h
    split at h
    · cases h
    · rename_i hne
      cases h
      intro he
      exact hne he.symm

theorem svDiff_eq12 {a b : SemVer} {d : DiffClass} (h : svDiff a b = some d)
    (hd : d = DiffClass.patch ∨ d = DiffClass.prepatch ∨ d = DiffClass.prerelease) :
    a.major = b.major ∧ a.minor = b.minor := by
  simp only [svDiff] at h
  split_ifs at h <;> rcases hd with rfl | rfl | rfl <;> simp_all

theorem svDiff_eq1 {a b : SemVer} {d : DiffClass} (h : svDiff a b = some d)
    (hd : d = DiffClass.minor ∨ d = DiffClass.preminor ∨ d = DiffClass.patch ∨
      d = DiffClass.prepatch ∨ d = DiffClass.prerelease) :
    a.major = b.major := by
  simp only [svDiff] at h
  split_ifs at h <;> rcases hd with rfl | rfl | rfl | rfl | rfl <;> simp_all

theorem svDiff_of_eq12 {a b : SemVer} {d : DiffClass} (h : svDiff a b = some d)
    (h1 : a.major = b.major) (h2 : a.minor = b.minor) :
    d = DiffClass.patch ∨ d = DiffClass.prepatch ∨ d = DiffClass.prerelease := by
  simp only [svDiff] at h
  split_ifs at h <;> simp_all

theorem svDiff_of_eq1 {a b : SemVer} {d : DiffClass} (h : svDiff a b = some d)
    (h1 : a.major = b.major) :
    d = DiffClass.minor ∨ d = DiffClass.preminor ∨ d = DiffClass.patch ∨
      d = DiffClass.prepatch ∨ d = DiffClass.prerelease := by
  simp only [svDiff] at h
  split_ifs at h <;> simp_all

theorem svDiff_release {a b : SemVer} {d : DiffClass} (ha : a.prerelease = [])
    (hb : b.prerelease = []) (h : svDiff a b = some d) :
    d = DiffClass.major ∨ d = DiffClass.minor ∨ d = DiffClass.patch := by
  simp only [svDiff, ha, hb] at h
  split_ifs at h <;> simp_all

theorem extP_true :
    extendSemvers [DiffClass.patch] true =
      [DiffClass.patch, DiffClass.prerelease, DiffClass.prepatch] := by decide

theorem extP_false : extendSemvers [DiffClass.patch] false = [DiffClass.patch] := by decide

theorem extPM_true :
    extendSemvers [DiffClass.patch, DiffClass.minor] true =
      [DiffClass.patch, DiffClass.minor, DiffClass.prerelease, DiffClass.prepatch,
        DiffClass.preminor] := by decide

theorem extPM_false :
    extendSemvers [DiffClass.patch, DiffClass.minor] false =
      [DiffClass.patch, DiffClass.minor] := by decide

theorem extPMM_true :
    extendSemvers [DiffClass.patch, DiffClass.minor, DiffClass.major] true =
      [DiffClass.patch, DiffClass.minor, DiffClass.major, DiffClass.prerelease,
        DiffClass.prepatch, DiffClass.preminor, DiffClass.premajor] := by decide

theorem extPMM_false :
    extendSemvers [DiffClass.patch, DiffClass.minor, DiffClass.major] false =
      [DiffClass.patch, DiffClass.minor, DiffClass.major] := by decide

theorem ext_step {S : List DiffClass} {u : Bool} {temp ver : SemVer} {d : DiffClass}
    (hS : S = [DiffClass.patch] ∨ S = [DiffClass.patch, DiffClass.minor] ∨
      S = [DiffClass.patch, DiffClass.minor, DiffClass.major])
    (hmem : d ∈ extendSemvers S u) (hdiff : svDiff temp ver = some d) :
    (S = [DiffClass.patch] → temp.major = ver.major ∧ temp.minor = ver.minor) ∧
    (S = [DiffClass.patch, DiffClass.minor] → temp.major = ver.major) := by
  rcases hS with rfl | rfl | rfl
  · refine ⟨fun _ => ?_, fun hbad => by simp at hbad⟩
    cases u with
    | true =>
      rw [extP_true] at hmem
      simp only [List.mem_cons, List.mem_singleton, List.not_mem_nil, or_false] at hmem
      exact svDiff_eq12 hdiff (by tauto)
    | false =>
      rw [extP_false] at hmem
      simp only [List.mem_singleton] at hmem
      exact svDiff_eq12 hdiff (by tauto)
  · refine ⟨fun hbad => by simp at hbad, fun _ => ?_⟩
    cases u with
    | true =>
      rw [extPM_true] at hmem
      simp only [List.mem_cons, List.mem_singleton, List.not_mem_nil, or_false] at hmem
      exact svDiff_eq1 hdiff (by tauto)
    | false =>
      rw [extPM_false] at hmem
      simp only [List.mem_cons, List.mem_singleton, List.not_mem_nil, or_false] at hmem
      exact svDiff_eq1 hdiff (by tauto)
  · exact ⟨fun hbad => by simp at hbad, fun hbad => by simp at hbad⟩

theorem findVersionLoop_inv (data : PackageData) (opts : Opts) (u : Bool)
    (S : List DiffClass) (b : SemVer)
    (hS : S = [DiffClass.patch] ∨ S = [DiffClass.patch, DiffClass.minor] ∨
      S = [DiffClass.patch, DiffClass.minor, DiffClass.major]) :
    ∀ (vs : List SemVer) (temp : SemVer) (td : Int),
      (S = [DiffClass.patch] → temp.major = b.major ∧ temp.minor = b.minor) →
      (S = [DiffClass.patch, DiffClass.minor] → temp.major = b.major) →
      (temp.prerelease ≠ [] → u = true ∧ opts.useRel = false) →
      (S = [DiffClass.patch] →
        (findVersionLoop data opts u (extendSemvers S u) vs temp td).major = b.major ∧
        (findVersionLoop data opts u (extendSemvers S u) vs temp td).minor = b.minor) ∧
      (S = [DiffClass.patch, DiffClass.minor] →
        (findVersionLoop data opts u (extendSemvers S u) vs temp td).major = b.major) ∧
      ((findVersionLoop data opts u (extendSemvers S u) vs temp td).prerelease ≠ [] →
        u = true ∧ opts.useRel = false) := by
  intro vs
  induction vs with
  | nil => intro temp td h1 h2 h3; exact ⟨h1, h2, h3⟩
  | cons ver rest ih =>
    intro temp td h1 h2 h3
    simp only [findVersionLoop]
    split
    · exact ih temp td h1 h2 h3
    · rename_i hskip
      split
      · exact ih temp td h1 h2 h3
      · rename_i d hdiff
        split
        · rename_i hdmem
          have hverpre : ver.prerelease ≠ [] → u = true ∧ opts.useRel = false := by
            intro hvp
            have hE : ver.prerelease.isEmpty = false := by
              cases hE2 : ver.prerelease with
              | nil => exact absurd hE2 hvp
              | cons x xs => rfl
            cases hu : u <;> cases hrl : opts.useRel <;> simp_all
          have hcomp := ext_step hS hdmem hdiff
          have hv1 : S = [DiffClass.patch] → ver.major = b.major ∧ ver.minor = b.minor := by
            intro hsp
            obtain ⟨hma, hmi⟩ := h1 hsp
            obtain ⟨hma2, hmi2⟩ := hcomp.1 hsp
            exact ⟨hma2 ▸ hma, hmi2 ▸ hmi⟩
          have hv2 : S = [DiffClass.patch, DiffClass.minor] → ver.major = b.major := by
            intro hsp
            exact (hcomp.2 hsp) ▸ h2 hsp
          split
          · split
            · exact ih ver td hv1 hv2 hverpre
            · exact ih temp td h1 h2 h3
          · split
            · exact ih ver _ hv1 hv2 hverpre
            · exact ih temp td h1 h2 h3
        · exact ih temp td h1 h2 h3

theorem cmpN_refl (n : Nat) : cmpN n n = Ordering.eq := by simp [cmpN]

theorem cmpChars_refl : ∀ l : List Char, cmpChars l l = Ordering.eq
  | [] => rfl
  | c :: t => by simp [cmpChars, cmpN_refl, cmpChars_refl t]

theorem compareIds_refl (i : PreId) : compareIds i i = Ordering.eq := by
  cases i <;> simp [compareIds, cmpN_refl, cmpChars_refl]

theorem cmpPreLoop_refl : ∀ l : List PreId, cmpPreLoop l l = Ordering.eq
  | [] => rfl
  | i :: t => by simp [cmpPreLoop, compareIds_refl, cmpPreLoop_refl t]

theorem comparePre_refl (l : List PreId) : comparePre l l = Ordering.eq := by
  cases l <;> simp [comparePre, cmpPreLoop_refl]

theorem compareMain_refl (a : SemVer) : compareMain a a = Ordering.eq := by
  simp [compareMain]

theorem compareSemVer_refl (a : SemVer) : compareSemVer a a = Ordering.eq := by
  simp [compareSemVer, compareMain_refl, comparePre_refl]

theorem svGte_refl (a : SemVer) : svGte a a = true := by
  simp [svGte, compareSemVer_refl]

theorem comparePre_nil_not_lt (l : List PreId) : comparePre [] l ≠ Ordering.lt := by
  cases l <;> simp [comparePre]

theorem coerceV_major (x : SemVer) : (coerceV x).major = x.major := rfl

theorem coerceV_minor (x : SemVer) : (coerceV x).minor = x.minor := rfl

theorem coerceV_patch (x : SemVer) : (coerceV x).patch = x.patch := rfl

theorem coerceV_prerelease (x : SemVer) : (coerceV x).prerelease = [] := rfl

theorem compare_nopre {a b : SemVer} (ha : a.prerelease = []) (hb : b.prerelease = []) :
    compareSemVer a b = compareMain a b := by
  unfold compareSemVer
  rw [ha, hb]
  cases compareMain a b <;> rfl

theorem compareMain_lt_iff {a b : SemVer} :
    compareMain a b = Ordering.lt ↔
      a.major < b.major ∨ (a.major = b.major ∧
        (a.minor < b.minor ∨ (a.minor = b.minor ∧ a.patch < b.patch))) := by
  unfold compareMain
  split_ifs <;> simp_all <;> omega

theorem compareMain_gt_iff {a b : SemVer} :
    compareMain a b = Ordering.gt ↔
      b.major < a.major ∨ (b.major = a.major ∧
        (b.minor < a.minor ∨ (b.minor = a.minor ∧ b.patch < a.patch))) := by
  unfold compareMain
  split_ifs <;> simp_all <;> omega

theorem compareMain_not_lt_trans {a b c : SemVer} (h1 : compareMain a b ≠ Ordering.lt)
    (h2 : compareMain b c ≠ Ordering.lt) : compareMain a c ≠ Ordering.lt := by
  intro h3
  rw [compareMain_lt_iff] at h3
  have n1 : ¬(a.major < b.major ∨ (a.major = b.major ∧
      (a.minor < b.minor ∨ (a.minor = b.minor ∧ a.patch < b.patch)))) :=
    fun hx => h1 (compareMain_lt_iff.mpr hx)
  have n2 : ¬(b.major < c.major ∨ (b.major = c.major ∧
      (b.minor < c.minor ∨ (b.minor = c.minor ∧ b.patch < c.patch)))) :=
    fun hx => h2 (compareMain_lt_iff.mpr hx)
  omega

theorem svGte_ne_lt {a b : SemVer} (h : svGte a b = true) :
    compareSemVer a b ≠ Ordering.lt := by
  intro hx
  unfold svGte at h
  rw [hx] at h
  cases h

theorem svGte_of_ne_lt {a b : SemVer} (h : compareSemVer a b ≠ Ordering.lt) :
    svGte a b = true := by
  unfold svGte
  cases hx : compareSemVer a b
  · exact absurd hx h
  · rfl
  · rfl

theorem svGte_coerceV_of_nopre {x t : SemVer} (hx : x.prerelease = [])
    (h : svGte x t = true) : svGte x (coerceV t) = true := by
  apply svGte_of_ne_lt
  rw [compare_nopre hx (coerceV_prerelease t)]
  intro hm
  have hm' : compareMain x t = Ordering.lt := hm
  have : compareSemVer x t = Ordering.lt := by
    unfold compareSemVer
    rw [hm']
  exact svGte_ne_lt h this

theorem svGte_coerceV_swap {ver temp : SemVer}
    (h : svGte (coerceV ver) temp = false) :
    svGte (coerceV temp) (coerceV ver) = true := by
  have hlt : compareSemVer (coerceV ver) temp = Ordering.lt := by
    cases hc : compareSemVer (coerceV ver) temp
    · rfl
    · exfalso; unfold svGte at h; rw [hc] at h; cases h
    · exfalso; unfold svGte at h; rw [hc] at h; cases h
  have hm : compareMain (coerceV ver) temp = Ordering.lt := by
    cases hm2 : compareMain (coerceV ver) temp
    · rfl
    · exfalso
      have he : compareSemVer (coerceV ver) temp = comparePre [] temp.prerelease := by
        unfold compareSemVer
        rw [hm2]
        rfl
      rw [he] at hlt
      exact comparePre_nil_not_lt _ hlt
    · exfalso
      have he : compareSemVer (coerceV ver) temp = Ordering.gt := by
        unfold compareSemVer
        rw [hm2]
      rw [he] at hlt
      cases hlt
  apply svGte_of_ne_lt
  rw [compare_nopre (coerceV_prerelease temp) (coerceV_prerelease ver)]
  intro hx
  rw [compareMain_lt_iff] at hm hx
  simp only [coerceV_major, coerceV_minor, coerceV_patch] at hm hx
  omega

theorem svGte_trans_nopre {a b c : SemVer} (ha : a.prerelease = [])
    (hb : b.prerelease = []) (hc : c.prerelease = []) (h1 : svGte a b = true)
    (h2 : svGte b c = true) : svGte a c = true := by
  have n1 : compareMain a b ≠ Ordering.lt := by
    intro hx
    exact svGte_ne_lt h1 ((compare_nopre ha hb).trans hx)
  have n2 : compareMain b c ≠ Ordering.lt := by
    intro hx
    exact svGte_ne_lt h2 ((compare_nopre hb hc).trans hx)
  apply svGte_of_ne_lt
  rw [compare_nopre ha hc]
  exact compareMain_not_lt_trans n1 n2

theorem findVersionLoop_coerced_max (data : PackageData) (opts : Opts) (u : Bool)
    (s : List DiffClass) (hmode : opts.useGreatest = true ∨ data.time = none) :
    ∀ (vs : List SemVer) (temp : SemVer) (td : Int),
      svGte (coerceV (findVersionLoop data opts u s vs temp td)) (coerceV temp) = true ∧
      ∀ w ∈ comparedVersions data opts u s vs temp td,
        svGte (coerceV (findVersionLoop data opts u s vs temp td)) (coerceV w) = true := by
  have hcond : (opts.useGreatest || data.time.isNone) = true := by
    rcases hmode with h | h <;> simp [h]
  intro vs
  induction vs with
  | nil =>
    intro temp td
    exact ⟨svGte_refl _, fun w hw => by simp [comparedVersions] at hw⟩
  | cons ver rest ih =>
    intro temp td
    simp only [findVersionLoop, comparedVersions]
    by_cases hsk : (!ver.prerelease.isEmpty && (!u || opts.useRel)) = true
    · simp only [hsk, if_true]
      exact ih temp td
    · simp only [hsk, if_false, Bool.false_eq_true]
      cases hdiff : svDiff temp ver with
      | none => exact ih temp td
      | some d =>
        by_cases hdm : d ∈ s
        · simp only [hdm, if_true, hcond]
          by_cases hgte : svGte (coerceV ver) temp = true
          · simp only [hgte, if_true]
            obtain ⟨ih1, ih2⟩ := ih ver td
            have hstep : svGte (coerceV ver) (coerceV temp) = true :=
              svGte_coerceV_of_nopre (coerceV_prerelease ver) hgte
            refine ⟨svGte_trans_nopre (coerceV_prerelease _) (coerceV_prerelease _)
              (coerceV_prerelease _) ih1 hstep, ?_⟩
            intro w hw
            rcases List.mem_cons.mp hw with rfl | hw'
            · exact ih1
            · exact ih2 w hw'
          · have hgte' : svGte (coerceV ver) temp = false := by
              revert hgte; cases svGte (coerceV ver) temp <;> simp
            simp only [hgte', if_false, Bool.false_eq_true]
            obtain ⟨ih1, ih2⟩ := ih temp td
            refine ⟨ih1, ?_⟩
            intro w hw
            rcases List.mem_cons.mp hw with rfl | hw'
            · exact svGte_trans_nopre (coerceV_prerelease _) (coerceV_prerelease _)
                (coerceV_prerelease _) ih1 (svGte_coerceV_swap hgte')
            · exact ih2 w hw'
        · simp only [hdm, if_false]
          exact ih temp td

theorem takeWhile_append_all {a b : List Char} (h : ∀ c ∈ a, c.isDigit = true) :
    (a ++ b).takeWhile Char.isDigit = a ++ b.takeWhile Char.isDigit := by
  induction a with
  | nil => simp
  | cons x xs ih =>
    rw [List.cons_append, List.takeWhile_cons_of_pos (h x (List.mem_cons_self x xs)),
      ih fun c hc => h c (List.mem_cons_of_mem x hc), List.cons_append]

theorem dropWhile_append_all {a b : List Char} (h : ∀ c ∈ a, c.isDigit = true) :
    (a ++ b).dropWhile Char.isDigit = b.dropWhile Char.isDigit := by
  induction a with
  | nil => simp
  | cons x xs ih =>
    rw [List.cons_append, List.dropWhile_cons_of_pos (h x (List.mem_cons_self x xs)),
      ih fun c hc => h c (List.mem_cons_of_mem x hc)]

theorem takeWhile_nil_of_headNondigit {b : List Char} (h : headNondigit b = true) :
    b.takeWhile Char.isDigit = [] := by
  cases b with
  | nil => rfl
  | cons c t =>
    simp only [headNondigit, Bool.not_eq_true'] at h
    exact List.takeWhile_cons_of_neg (by rw [h]; exact Bool.false_ne_true)

theorem dropWhile_self_of_headNondigit {b : List Char} (h : headNondigit b = true) :
    b.dropWhile Char.isDigit = b := by
  cases b with
  | nil => rfl
  | cons c t =>
    simp only [headNondigit, Bool.not_eq_true'] at h
    exact List.dropWhile_cons_of_neg (by rw [h]; exact Bool.false_ne_true)

theorem headNondigit_dropWhile (l : List Char) :
    headNondigit (l.dropWhile Char.isDigit) = true := by
  induction l with
  | nil => rfl
  | cons c t ih =>
    by_cases hc : c.isDigit = true
    · rw [List.dropWhile_cons_of_pos hc]; exact ih
    · rw [List.dropWhile_cons_of_neg hc]
      cases hcc : c.isDigit with
      | true => exact absurd hcc hc
      | false => simp [headNondigit, hcc]

theorem mem_takeWhile_digit {l : List Char} {c : Char}
    (h : c ∈ l.takeWhile Char.isDigit) : c.isDigit = true := by
  induction l with
  | nil => simp [List.takeWhile] at h
  | cons x xs ih =>
    by_cases hx : x.isDigit = true
    · rw [List.takeWhile_cons_of_pos hx] at h
      rcases List.mem_cons.mp h with rfl | h'
      · exact hx
      · exact ih h'
    · rw [List.takeWhile_cons_of_neg hx] at h
      cases h

theorem length_dropWhile_le (p : Char → Bool) (l : List Char) :
    (l.dropWhile p).length ≤ l.length := by
  induction l with
  | nil => simp
  | cons x xs ih =>
    by_cases hx : p x = true
    · rw [List.dropWhile_cons_of_pos hx]; exact Nat.le_succ_of_le ih
    · rw [List.dropWhile_cons_of_neg hx]

theorem matchAfterTwo_rest_le {d1 d2 u m r : List Char}
    (h : matchAfterTwo d1 d2 u = some (m, r)) : r.length ≤ u.length := by
  simp only [matchAfterTwo] at h
  split at h
  · rename_i r4
    have hlen : (r4.dropWhile Char.isDigit).length ≤ r4.length := length_dropWhile_le _ _
    split at h
    · cases h
    · split at h
      · rename_i r6 heq
        have hlen6 : ('-' :: r6).length ≤ r4.length := heq ▸ hlen
        split at h
        · rw [Option.some.injEq, Prod.mk.injEq] at h
          obtain ⟨-, hr⟩ := h
          subst hr
          simp only [List.length_cons] at hlen6 hlen ⊢
          omega
        · rw [Option.some.injEq, Prod.mk.injEq] at h
          obtain ⟨-, hr⟩ := h
          subst hr
          have hd : ((r6.dropWhile fun c => !isNL c)).length ≤ r6.length :=
            length_dropWhile_le _ _
          simp only [List.length_cons] at hlen6 hlen ⊢
          omega
      · rw [Option.some.injEq, Prod.mk.injEq] at h
        obtain ⟨-, hr⟩ := h
        subst hr
        simp only [List.length_cons] at hlen ⊢
        omega
  · cases h

theorem matchAfterOne_rest_le {d1 u m r : List Char}
    (h : matchAfterOne d1 u = some (m, r)) : r.length ≤ u.length := by
  simp only [matchAfterOne] at h
  split at h
  · rename_i r2
    split at h
    · cases h
    · have h2 := matchAfterTwo_rest_le h
      have h3 : (r2.dropWhile Char.isDigit).length ≤ r2.length := length_dropWhile_le _ _
      simp only [List.length_cons]
      omega
  · cases h

theorem matchVer_rest_lt {s m r : List Char} (h : matchVer s = some (m, r)) :
    r.length < s.length := by
  simp only [matchVer] at h
  split at h
  · cases h
  · rename_i hne
    have h2 := matchAfterOne_rest_le h
    have hsum : (s.takeWhile Char.isDigit).length + (s.dropWhile Char.isDigit).length
        = s.length := by
      rw [← List.length_append, List.takeWhile_append_dropWhile]
    have hpos : 0 < (s.takeWhile Char.isDigit).length := List.length_pos.mpr hne
    omega

theorem replaceAllF_fuel (v : List Char) :
    ∀ (f1 f2 : Nat) (s : List Char), s.length ≤ f1 → s.length ≤ f2 →
      replaceAllF v f1 s = replaceAllF v f2 s := by
  intro f1
  induction f1 with
  | zero =>
    intro f2 s h1 _
    have hs : s = [] := List.eq_nil_of_length_eq_zero (Nat.le_zero.mp h1)
    subst hs
    cases f2 <;> rfl
  | succ f ih =>
    intro f2 s h1 h2
    cases s with
    | nil => cases f2 <;> rfl
    | cons c t =>
      cases f2 with
      | zero => simp at h2
      | succ f2' =>
        simp only [replaceAllF]
        cases hm : matchVer (c :: t) with
        | some pr =>
          obtain ⟨m, r⟩ := pr
          have hr : r.length < (c :: t).length := matchVer_rest_lt hm
          simp only [hm]
          simp only [List.length_cons] at h1 h2 hr
          rw [ih f2' r (by omega) (by omega)]
        | none =>
          simp only [hm]
          simp only [List.length_cons] at h1 h2
          rw [ih f2' t (by omega) (by omega)]

theorem replaceAll_nil (v : List Char) : replaceAll v [] = [] := rfl

theorem replaceAll_cons_match {v : List Char} {c : Char} {t m r : List Char}
    (h : matchVer (c :: t) = some (m, r)) :
    replaceAll v (c :: t) = v ++ replaceAll v r := by
  unfold replaceAll
  simp only [List.length_cons, replaceAllF, h]
  have hr : r.length < t.length + 1 := by
    have := matchVer_rest_lt h
    simpa using this
  rw [replaceAllF_fuel v t.length r.length r (by omega) (Nat.le_refl _)]

theorem replaceAll_cons_none {v : List Char} {c : Char} {t : List Char}
    (h : matchVer (c :: t) = none) :
    replaceAll v (c :: t) = c :: replaceAll v t := by
  unfold replaceAll
  simp only [List.length_cons, replaceAllF, h]

theorem matchVer_nondigit {c : Char} (h : c.isDigit = false) (t : List Char) :
    matchVer (c :: t) = none := by
  unfold matchVer
  rw [List.takeWhile_cons_of_neg (by rw [h]; exact Bool.false_ne_true)]
  rw [if_pos rfl]

theorem replaceAll_cons_nondigit {v : List Char} {c : Char} {t : List Char}
    (h : c.isDigit = false) :
    replaceAll v (c :: t) = c :: replaceAll v t :=
  replaceAll_cons_none (matchVer_nondigit h t)

theorem headNondigit_replaceAll {v s : List Char} (h : headNondigit s = true) :
    headNondigit (replaceAll v s) = true := by
  cases s with
  | nil => rw [replaceAll_nil]; rfl
  | cons c t =>
    simp only [headNondigit, Bool.not_eq_true'] at h
    rw [replaceAll_cons_nondigit h]
    simp [headNondigit, h]

theorem headNondigit_of_takeWhile_nil {t : List Char}
    (h : t.takeWhile Char.isDigit = []) : headNondigit t = true := by
  cases t with
  | nil => rfl
  | cons c2 t2 =>
    cases hcc : c2.isDigit with
    | true => rw [List.takeWhile_cons_of_pos hcc] at h; cases h
    | false => simp [headNondigit, hcc]

theorem matchAfterTwo_none_iff {d1 d2 w : List Char} :
    matchAfterTwo d1 d2 w = none ↔ dotDigit w = false := by
  simp only [matchAfterTwo, dotDigit]
  split
  · rename_i r4
    by_cases hd : r4.takeWhile Char.isDigit = []
    · rw [if_pos hd, hd]
      simp
    · rw [if_neg hd]
      constructor
      · intro hx
        split at hx
        · split at hx <;> cases hx
        · cases hx
      · intro hx
        exfalso
        simp only [Bool.not_eq_false', List.isEmpty_iff] at hx
        exact hd hx
  · simp

theorem matchAfterOne_none_iff {d1 u : List Char} :
    matchAfterOne d1 u = none ↔ mAONone u = true := by
  simp only [matchAfterOne, mAONone]
  split
  · rename_i r2
    by_cases hd : r2.takeWhile Char.isDigit = []
    · rw [if_pos hd, if_pos hd]
      simp
    · rw [if_neg hd, if_neg hd]
      rw [matchAfterTwo_none_iff]
      cases dotDigit (r2.dropWhile Char.isDigit) <;> simp
  · simp

theorem mAONone_of_dotDigit_false {u : List Char} (h : dotDigit u = false) :
    mAONone u = true := by
  simp only [mAONone]
  split
  · rename_i r2
    simp only [dotDigit] at h
    simp only [Bool.not_eq_false', List.isEmpty_iff] at h
    rw [if_pos h]
  · rfl

theorem okRest_headNondigit {r : List Char} (h : okRest r = true) :
    headNondigit r = true := by
  cases r with
  | nil => rfl
  | cons c t =>
    simp only [okRest] at h
    split_ifs at h with h1
    · simp [headNondigit, h1]
    · cases hcc : c.isDigit with
      | true => exact absurd hcc h1
      | false => simp [headNondigit, hcc]

theorem matchVer_digit {c : Char} (hc : c.isDigit = true) (w : List Char) :
    matchVer (c :: w) =
      matchAfterOne (c :: w.takeWhile Char.isDigit) (w.dropWhile Char.isDigit) := by
  simp only [matchVer]
  rw [List.takeWhile_cons_of_pos hc, List.dropWhile_cons_of_pos hc]
  rw [if_neg (by simp)]

theorem matchVer_digits_append {ds u : List Char} (hne : ds ≠ [])
    (hds : ∀ c ∈ ds, c.isDigit = true) (hu : headNondigit u = true) :
    matchVer (ds ++ u) = matchAfterOne ds u := by
  simp only [matchVer]
  rw [takeWhile_append_all hds, takeWhile_nil_of_headNondigit hu, List.append_nil,
    dropWhile_append_all hds, dropWhile_self_of_headNondigit hu]
  rw [if_neg hne]

theorem replaceAll_append_of_none {v t : List Char} :
    ∀ pre : List Char,
      (∀ b : List Char, b <:+ pre → b ≠ [] → matchVer (b ++ t) = none) →
      replaceAll v (pre ++ t) = pre ++ replaceAll v t := by
  intro pre
  induction pre with
  | nil => intro _; simp
  | cons p ps ih =>
    intro h
    have h0 : matchVer (p :: (ps ++ t)) = none := by
      have := h (p :: ps) (List.suffix_refl _) (by simp)
      rwa [List.cons_append] at this
    rw [List.cons_append, replaceAll_cons_none h0]
    rw [ih fun b hb hbne => h b (hb.trans (List.suffix_cons p ps)) hbne]
    rw [List.cons_append]

theorem dotDigit_replaceAll {v u : List Char} (hnd : headNondigit u = true)
    (h : dotDigit u = false) : dotDigit (replaceAll v u) = false := by
  cases u with
  | nil => rw [replaceAll_nil]; rfl
  | cons c t =>
    by_cases hc : c = '.'
    · subst hc
      rw [replaceAll_cons_nondigit (by decide)]
      simp only [dotDigit] at h ⊢
      simp only [Bool.not_eq_false', List.isEmpty_iff] at h
      rw [takeWhile_nil_of_headNondigit
        (headNondigit_replaceAll (headNondigit_of_takeWhile_nil h))]
      rfl
    · simp only [headNondigit, Bool.not_eq_true'] at hnd
      rw [replaceAll_cons_nondigit hnd]
      simp only [dotDigit]
      split
      · rename_i heq
        simp_all
      · rfl

theorem mAONone_replaceAll {v u : List Char} (hnd : headNondigit u = true)
    (h : mAONone u = true) : mAONone (replaceAll v u) = true := by
  cases u with
  | nil => rw [replaceAll_nil]; exact h
  | cons c t =>
    by_cases hc : c = '.'
    · subst hc
      rw [replaceAll_cons_nondigit (by decide)]
      simp only [mAONone] at h ⊢
      by_cases hd2 : t.takeWhile Char.isDigit = []
      · rw [takeWhile_nil_of_headNondigit
          (headNondigit_replaceAll (headNondigit_of_takeWhile_nil hd2))]
        rw [if_pos rfl]
      · rw [if_neg hd2] at h
        have hdd3 : dotDigit (t.dropWhile Char.isDigit) = false := by
          revert h; cases dotDigit (t.dropWhile Char.isDigit) <;> simp
        have hsplit : replaceAll v t
            = t.takeWhile Char.isDigit ++ replaceAll v (t.dropWhile Char.isDigit) := by
          conv_lhs => rw [← List.takeWhile_append_dropWhile (p := Char.isDigit) (l := t)]
          apply replaceAll_append_of_none
          intro b hb hbne
          have hbd : ∀ x ∈ b, x.isDigit = true := fun x hx =>
            mem_takeWhile_digit (hb.subset hx)
          rw [matchVer_digits_append hbne hbd (headNondigit_dropWhile t)]
          exact matchAfterOne_none_iff.mpr (mAONone_of_dotDigit_false hdd3)
        rw [hsplit]
        have hRnd : headNondigit (replaceAll v (t.dropWhile Char.isDigit)) = true :=
          headNondigit_replaceAll (headNondigit_dropWhile t)
        rw [takeWhile_append_all fun x hx => mem_takeWhile_digit hx,
          takeWhile_nil_of_headNondigit hRnd, List.append_nil]
        rw [if_neg hd2]
        rw [dropWhile_append_all fun x hx => mem_takeWhile_digit hx,
          dropWhile_self_of_headNondigit hRnd]
        rw [dotDigit_replaceAll (headNondigit_dropWhile t) hdd3]
        rfl
    · simp only [headNondigit, Bool.not_eq_true'] at hnd
      rw [replaceAll_cons_nondigit hnd]
      simp only [mAONone]
      split
      · rename_i heq
        simp_all
      · rfl

theorem matchVer_none_replaceAll {v : List Char} {c : Char} {rest : List Char}
    (hc : c.isDigit = true) (h : matchVer (c :: rest) = none) :
    matchVer (c :: replaceAll v rest) = none := by
  rw [matchVer_digit hc] at h
  have hmao : mAONone (rest.dropWhile Char.isDigit) = true := matchAfterOne_none_iff.mp h
  have hsplit : replaceAll v rest
      = rest.takeWhile Char.isDigit ++ replaceAll v (rest.dropWhile Char.isDigit) := by
    conv_lhs => rw [← List.takeWhile_append_dropWhile (p := Char.isDigit) (l := rest)]
    apply replaceAll_append_of_none
    intro b hb hbne
    have hbd : ∀ x ∈ b, x.isDigit = true := fun x hx => mem_takeWhile_digit (hb.subset hx)
    rw [matchVer_digits_append hbne hbd (headNondigit_dropWhile rest)]
    exact matchAfterOne_none_iff.mpr hmao
  rw [hsplit]
  have hR : headNondigit (replaceAll v (rest.dropWhile Char.isDigit)) = true :=
    headNondigit_replaceAll (headNondigit_dropWhile rest)
  simp only [matchVer]
  rw [List.takeWhile_cons_of_pos hc, List.dropWhile_cons_of_pos hc]
  rw [takeWhile_append_all fun x hx => mem_takeWhile_digit hx,
    takeWhile_nil_of_headNondigit hR, List.append_nil]
  rw [dropWhile_append_all fun x hx => mem_takeWhile_digit hx,
    dropWhile_self_of_headNondigit hR]
  rw [if_neg (by simp)]
  exact matchAfterOne_none_iff.mpr (mAONone_replaceAll (headNondigit_dropWhile rest) hmao)

theorem isNL_not_digit {c : Char} (h : isNL c = true) : c.isDigit = false := by
  simp only [isNL, Bool.or_eq_true, decide_eq_true_eq] at h
  rcases h with ((h | h) | h) | h <;> subst h <;> decide

theorem isNL_ne_dash {c : Char} (h : isNL c = true) : ¬c = '-' := by
  simp only [isNL, Bool.or_eq_true, decide_eq_true_eq] at h
  rcases h with ((h | h) | h) | h <;> subst h <;> decide

theorem takeWhile_nil_head_fails {p : Char → Bool} {c : Char} {t : List Char}
    (h : (c :: t).takeWhile p = []) : p c = false := by
  by_cases hc : p c = true
  · rw [List.takeWhile_cons_of_pos (p := p) hc] at h
    cases h
  · revert hc
    cases p c <;> simp

theorem dropWhile_head_fails (p : Char → Bool) :
    ∀ (l : List Char) (c : Char) (t : List Char), l.dropWhile p = c :: t → p c = false := by
  intro l
  induction l with
  | nil => intro c t h; cases h
  | cons x xs ih =>
    intro c t h
    by_cases hx : p x = true
    · rw [List.dropWhile_cons_of_pos hx] at h
      exact ih c t h
    · rw [List.dropWhile_cons_of_neg hx] at h
      cases h
      revert hx
      cases p x <;> simp

theorem matchAfterTwo_okRest {d1 d2 u m r : List Char}
    (h : matchAfterTwo d1 d2 u = some (m, r)) : okRest r = true := by
  simp only [matchAfterTwo] at h
  split at h
  · rename_i r4
    split at h
    · cases h
    · split at h
      · rename_i r6 heq
        split at h
        · rename_i htl
          rw [Option.some.injEq, Prod.mk.injEq] at h
          obtain ⟨-, hr⟩ := h
          subst hr
          rw [heq]
          cases r6 with
          | nil => rfl
          | cons c2 t2 =>
            have hf := takeWhile_nil_head_fails htl
            have hnl : isNL c2 = true := by
              simp only [Bool.not_eq_false'] at hf
              exact hf
            simp [okRest, hnl, isNL_not_digit hnl]
        · rw [Option.some.injEq, Prod.mk.injEq] at h
          obtain ⟨-, hr⟩ := h
          subst hr
          cases hdw : r6.dropWhile (fun c => !isNL c) with
          | nil => rfl
          | cons c2 t2 =>
            have hfail : (!isNL c2) = false := dropWhile_head_fails _ r6 c2 t2 hdw
            have hnl : isNL c2 = true := by revert hfail; cases isNL c2 <;> simp
            simp [okRest, hnl, isNL_not_digit hnl, isNL_ne_dash hnl]
      · rename_i hne
        rw [Option.some.injEq, Prod.mk.injEq] at h
        obtain ⟨-, hr⟩ := h
        subst hr
        cases hdw : r4.dropWhile Char.isDigit with
        | nil => rfl
        | cons c2 t2 =>
          have hdig : c2.isDigit = false := dropWhile_head_fails _ r4 c2 t2 hdw
          have hdash : ¬c2 = '-' := by
            intro hd
            subst hd
            exact hne t2 hdw
          simp [okRest, hdig, hdash]
  · cases h

theorem matchAfterOne_okRest {d1 u m r : List Char}
    (h : matchAfterOne d1 u = some (m, r)) : okRest r = true := by
  simp only [matchAfterOne] at h
  split at h
  · split at h
    · cases h
    · exact matchAfterTwo_okRest h
  · cases h

theorem matchVer_okRest {s m r : List Char} (h : matchVer s = some (m, r)) :
    okRest r = true := by
  simp only [matchVer] at h
  split at h
  · cases h
  · exact matchAfterOne_okRest h

theorem replaceAll_okRest {v r : List Char} (h : okRest r = true) :
    okRest (replaceAll v r) = true := by
  cases r with
  | nil => rw [replaceAll_nil]; rfl
  | cons c t =>
    by_cases hdig : c.isDigit = true
    · exfalso
      simp only [okRest] at h
      rw [if_pos hdig] at h
      exact absurd h (by simp)
    · have hdig' : c.isDigit = false := by revert hdig; cases c.isDigit <;> simp
      rw [replaceAll_cons_nondigit hdig']
      by_cases hdash : c = '-'
      · subst hdash
        simp only [okRest] at h
        rw [if_pos trivial] at h
        cases t with
        | nil => rw [replaceAll_nil]; rfl
        | cons c2 t2 =>
          have hnl : isNL c2 = true := h
          rw [replaceAll_cons_nondigit (isNL_not_digit hnl)]
          simp [okRest, hnl]
      · simp [okRest, hdig', hdash]

theorem matchVer_token {d1 d2 d3 X : List Char}
    (h1 : d1 ≠ []) (hd1 : ∀ c ∈ d1, c.isDigit = true)
    (h2 : d2 ≠ []) (hd2 : ∀ c ∈ d2, c.isDigit = true)
    (h3 : d3 ≠ []) (hd3 : ∀ c ∈ d3, c.isDigit = true)
    (hX : okRest X = true) :
    matchVer ((d1 ++ '.' :: d2 ++ '.' :: d3) ++ X)
      = some (d1 ++ '.' :: d2 ++ '.' :: d3, X) := by
  have hXnd : headNondigit X = true := okRest_headNondigit hX
  have e1 : (d1 ++ '.' :: d2 ++ '.' :: d3) ++ X
      = d1 ++ '.' :: (d2 ++ '.' :: (d3 ++ X)) := by
    simp [List.append_assoc]
  rw [e1]
  simp only [matchVer]
  rw [takeWhile_append_all hd1, List.takeWhile_cons_of_neg (by decide), List.append_nil,
    dropWhile_append_all hd1, List.dropWhile_cons_of_neg (by decide)]
  rw [if_neg h1]
  simp only [matchAfterOne]
  rw [takeWhile_append_all hd2, List.takeWhile_cons_of_neg (by decide), List.append_nil,
    dropWhile_append_all hd2, List.dropWhile_cons_of_neg (by decide)]
  rw [if_neg h2]
  simp only [matchAfterTwo]
  rw [takeWhile_append_all hd3, takeWhile_nil_of_headNondigit hXnd, List.append_nil,
    dropWhile_append_all hd3, dropWhile_self_of_headNondigit hXnd]
  rw [if_neg h3]
  split
  · rename_i r6
    cases r6 with
    | nil => rw [List.takeWhile_nil, if_pos rfl]
    | cons c2 xs2 =>
      have hnl : isNL c2 = true := by
        simp only [okRest] at hX
        rw [if_pos trivial] at hX
        exact hX
      rw [List.takeWhile_cons_of_neg (p := fun c => !isNL c) (by simp [hnl]), if_pos rfl]
  · rfl

theorem replaceAll_token {v d1 d2 d3 X : List Char}
    (h1 : d1 ≠ []) (hd1 : ∀ c ∈ d1, c.isDigit = true)
    (h2 : d2 ≠ []) (hd2 : ∀ c ∈ d2, c.isDigit = true)
    (h3 : d3 ≠ []) (hd3 : ∀ c ∈ d3, c.isDigit = true)
    (hX : okRest X = true) :
    replaceAll v ((d1 ++ '.' :: d2 ++ '.' :: d3) ++ X) = v ++ replaceAll v X := by
  have hmt := matchVer_token h1 hd1 h2 hd2 h3 hd3 hX
  obtain ⟨a, d1', rfl⟩ : ∃ a t, d1 = a :: t := by
    cases d1 with
    | nil => exact absurd rfl h1
    | cons a t => exact ⟨a, t, rfl⟩
  have hshape : ((a :: d1') ++ '.' :: d2 ++ '.' :: d3) ++ X
      = a :: (d1' ++ '.' :: d2 ++ '.' :: d3 ++ X) := by
    simp [List.append_assoc]
  rw [hshape] at hmt ⊢
  rw [replaceAll_cons_match hmt]

theorem replaceAll_clean_append {v t : List Char} (pre : List Char)
    (hpre : ∀ c ∈ pre, c.isDigit = false) :
    replaceAll v (pre ++ t) = pre ++ replaceAll v t := by
  apply replaceAll_append_of_none
  intro b hb hbne
  cases b with
  | nil => exact absurd rfl hbne
  | cons c b' =>
    have hc : c.isDigit = false := hpre c (hb.subset (List.mem_cons_self c b'))
    rw [List.cons_append]
    exact matchVer_nondigit hc _

theorem replaceAll_nodigits {v : List Char} :
    ∀ s, (∀ c ∈ s, c.isDigit = false) → replaceAll v s = s := by
  intro s
  induction s with
  | nil => intro _; exact replaceAll_nil v
  | cons c t ih =>
    intro h
    rw [replaceAll_cons_nondigit (h c (List.mem_cons_self c t))]
    rw [ih fun x hx => h x (List.mem_cons_of_mem c hx)]

theorem okRest_of_head {c : Char} {t : List Char} (h1 : c.isDigit = false)
    (h2 : ¬c = '-') : okRest (c :: t) = true := by
  simp [okRest, h1, h2]

theorem replaceAll_idem_aux {d1 d2 d3 v : List Char}
    (h1 : d1 ≠ []) (hd1 : ∀ c ∈ d1, c.isDigit = true)
    (h2 : d2 ≠ []) (hd2 : ∀ c ∈ d2, c.isDigit = true)
    (h3 : d3 ≠ []) (hd3 : ∀ c ∈ d3, c.isDigit = true)
    (hv : v = d1 ++ '.' :: d2 ++ '.' :: d3) :
    ∀ (n : Nat) (s : List Char), s.length ≤ n →
      replaceAll v (replaceAll v s) = replaceAll v s := by
  intro n
  induction n with
  | zero =>
    intro s hs
    have hnil : s = [] := List.eq_nil_of_length_eq_zero (Nat.le_zero.mp hs)
    subst hnil
    rw [replaceAll_nil, replaceAll_nil]
  | succ n ih =>
    intro s hs
    cases s with
    | nil => rw [replaceAll_nil, replaceAll_nil]
    | cons c t =>
      cases hm : matchVer (c :: t) with
      | some pr =>
        obtain ⟨m, r⟩ := pr
        rw [replaceAll_cons_match hm]
        have hok : okRest (replaceAll v r) = true :=
          replaceAll_okRest (matchVer_okRest hm)
        have hr : r.length < (c :: t).length := matchVer_rest_lt hm
        have hrn : r.length ≤ n := by
          simp only [List.length_cons] at hr hs
          omega
        have harg : v ++ replaceAll v r
            = (d1 ++ '.' :: d2 ++ '.' :: d3) ++ replaceAll v r :=
          congrArg (fun z => z ++ replaceAll v r) hv
        rw [harg, replaceAll_token h1 hd1 h2 hd2 h3 hd3 hok, ih r hrn]
        exact harg
      | none =>
        rw [replaceAll_cons_none hm]
        have htn : t.length ≤ n := by
          simp only [List.length_cons] at hs
          omega
        by_cases hc : c.isDigit = true
        · rw [replaceAll_cons_none (matchVer_none_replaceAll hc hm)]
          rw [ih t htn]
        · have hc' : c.isDigit = false := by revert hc; cases c.isDigit <;> simp
          rw [replaceAll_cons_nondigit hc']
          rw [ih t htn]

/-- Counterexample to claim C8: `updateRange` is not idempotent for every
range and version.  With a prerelease version the greedy `-.+` group of the
second application swallows the text after the substituted token:
rewriting `1.2.3 x` with `1.0.0-a` yields `1.0.0-a x`, but rewriting that
again yields `1.0.0-a`. -/
theorem updateRange_idem_counterexample :
    updateRange (updateRange "1.2.3 x" "1.0.0-a") "1.0.0-a"
      ≠ updateRange "1.2.3 x" "1.0.0-a" ∧
    updateRange "1.2.3 x" "1.0.0-a" = "1.0.0-a x" ∧
    updateRange (updateRange "1.2.3 x" "1.0.0-a") "1.0.0-a" = "1.0.0-a" := by
  decide

/-- Claim C8 as amended: the rewrite is idempotent for every range string
when the substituted version is a release version token
(`digits.digits.digits`, no prerelease suffix) — the shape the
counterexample forces us to restrict to. -/
theorem updateRange_idem_release (r v : String) (d1 d2 d3 : List Char)
    (h1 : d1 ≠ []) (hd1 : ∀ c ∈ d1, c.isDigit = true)
    (h2 : d2 ≠ []) (hd2 : ∀ c ∈ d2, c.isDigit = true)
    (h3 : d3 ≠ []) (hd3 : ∀ c ∈ d3, c.isDigit = true)
    (hv : v.toList = d1 ++ '.' :: d2 ++ '.' :: d3) :
    updateRange (updateRange r v) v = updateRange r v := by
  unfold updateRange
  congr 1
  show replaceAll v.toList (replaceAll v.toList r.toList) = replaceAll v.toList r.toList
  exact replaceAll_idem_aux h1 hd1 h2 hd2 h3 hd3 hv r.toList.length r.toList
    (Nat.le_refl _)

/-- Witness for C8: rewriting `^1.2.3 x` with the release token `2.0.0`
twice equals rewriting it once. -/
theorem updateRange_idem_release_witness :
    updateRange (updateRange "^1.2.3 x" "2.0.0") "2.0.0"
      = updateRange "^1.2.3 x" "2.0.0" :=
  updateRange_idem_release "^1.2.3 x" "2.0.0" ['2'] ['0'] ['0']
    (by decide) (by decide) (by decide) (by decide) (by decide) (by decide) (by decide)

/-- Counterexample to claim C3: `updateRange` does not replace only the
first embedded version token — the regex carries the global flag, so every
token is replaced: rewriting `>=1.0.0 <2.0.0` with `3.0.0` yields
`>=3.0.0 <3.0.0`, not the `>=3.0.0 <2.0.0` the claim predicts. -/
theorem updateRange_first_token_counterexample :
    updateRange ">=1.0.0 <2.0.0" "3.0.0" ≠ ">=3.0.0 <2.0.0" ∧
    updateRange ">=1.0.0 <2.0.0" "3.0.0" = ">=3.0.0 <3.0.0" := by
  decide

/-- Claim C3 as amended: `updateRange` replaces every embedded
`major.minor.patch` token with the new version, leaving the range-operator
or comparator text around the tokens intact (shown here for two tokens
separated by digit-free, dash-free text, the shape of comparator ranges
such as `>=1.0.0 <2.0.0`). -/
theorem updateRange_all_tokens (r v : String)
    (pre mid post e1 e2 e3 f1 f2 f3 : List Char)
    (hr : r.toList = pre ++ ((e1 ++ '.' :: e2 ++ '.' :: e3)
      ++ (mid ++ ((f1 ++ '.' :: f2 ++ '.' :: f3) ++ post))))
    (he1 : e1 ≠ []) (hde1 : ∀ c ∈ e1, c.isDigit = true)
    (he2 : e2 ≠ []) (hde2 : ∀ c ∈ e2, c.isDigit = true)
    (he3 : e3 ≠ []) (hde3 : ∀ c ∈ e3, c.isDigit = true)
    (hf1 : f1 ≠ []) (hdf1 : ∀ c ∈ f1, c.isDigit = true)
    (hf2 : f2 ≠ []) (hdf2 : ∀ c ∈ f2, c.isDigit = true)
    (hf3 : f3 ≠ []) (hdf3 : ∀ c ∈ f3, c.isDigit = true)
    (hpre : ∀ c ∈ pre, c.isDigit = false)
    (hmid0 : mid ≠ []) (hmid : ∀ c ∈ mid, c.isDigit = false ∧ ¬c = '-')
    (hpost : ∀ c ∈ post, c.isDigit = false ∧ ¬c = '-') :
    (updateRange r v).toList
      = pre ++ (v.toList ++ (mid ++ (v.toList ++ post))) := by
  have hokpost : okRest post = true := by
    cases post with
    | nil => rfl
    | cons c t =>
      have := hpost c (List.mem_cons_self c t)
      exact okRest_of_head this.1 this.2
  have hokmid : okRest (mid ++ ((f1 ++ '.' :: f2 ++ '.' :: f3) ++ post)) = true := by
    cases mid with
    | nil => exact absurd rfl hmid0
    | cons c t =>
      have := hmid c (List.mem_cons_self c t)
      rw [List.cons_append]
      exact okRest_of_head this.1 this.2
  show (String.mk (replaceAll v.toList r.toList)).toList = _
  have : (String.mk (replaceAll v.toList r.toList)).toList
      = replaceAll v.toList r.toList := rfl
  rw [this, hr]
  rw [replaceAll_clean_append pre hpre]
  rw [replaceAll_token he1 hde1 he2 hde2 he3 hde3 hokmid]
  rw [replaceAll_clean_append mid fun c hc => (hmid c hc).1]
  rw [replaceAll_token hf1 hdf1 hf2 hdf2 hf3 hdf3 hokpost]
  rw [replaceAll_nodigits post fun c hc => (hpost c hc).1]

/-- Witness for C3 (amended): the counterexample's range `>=1.0.0 <2.0.0`
with `3.0.0` rewrites both tokens and keeps the comparators. -/
theorem updateRange_all_tokens_witness :
    (updateRange ">=1.0.0 <2.0.0" "3.0.0").toList
      = ['>', '='] ++ ("3.0.0".toList ++ ([' ', '<'] ++ ("3.0.0".toList ++ []))) :=
  updateRange_all_tokens ">=1.0.0 <2.0.0" "3.0.0"
    ['>', '='] [' ', '<'] [] ['1'] ['0'] ['0'] ['2'] ['0'] ['0']
    (by decide) (by decide) (by decide) (by decide) (by decide) (by decide)
    (by decide) (by decide) (by decide) (by decide) (by decide) (by decide)
    (by decide) (by decide) (by decide) (by decide) (by decide)

/-- Claim C1: for every coercible (non-wildcard) range, every policy whose
`semvers` list is one of the three diff ceilings, and every version list in
any order, `findVersion` never returns a version whose semver-diff class
from the baseline of the range lies outside the accepted set derived from
the ceiling (the ceiling classes, extended with their `pre` variants and
`prerelease` when prereleases are allowed); the diff from the baseline may
also be `none` when the selection stays at the baseline.  The result holds
even though the code diffs each candidate against the running candidate
rather than the baseline. -/
theorem findVersion_diff_within_ceiling (data : PackageData) (versions : List SemVer)
    (opts : Opts) (b res : SemVer)
    (hS : opts.semvers = [DiffClass.patch] ∨
      opts.semvers = [DiffClass.patch, DiffClass.minor] ∨
      opts.semvers = [DiffClass.patch, DiffClass.minor, DiffClass.major])
    (hb : rangeToVersion opts.range = some b)
    (hres : findVersion data versions opts = some res) :
    svDiff b res = none ∨
      svDiff b res ∈
        (extendSemvers opts.semvers (isRangePrerelease opts.range || opts.usePre)).map
          some := by
  unfold findVersion at hres
  rw [hb] at hres
  simp only [Option.some.injEq] at hres
  have hbp : b.prerelease = [] := rangeToVersion_prerelease hb
  obtain ⟨i1, i2, i3⟩ := findVersionLoop_inv data opts
    (isRangePrerelease opts.range || opts.usePre) opts.semvers b hS versions b 0
    (fun _ => ⟨rfl, rfl⟩) (fun _ => rfl) (fun hc => absurd hbp hc)
  rw [hres] at i1 i2 i3
  cases hd : svDiff b res with
  | none => exact Or.inl rfl
  | some d =>
    right
    rw [List.mem_map]
    refine ⟨d, ?_, rfl⟩
    by_cases hrp : res.prerelease = []
    · have hre := svDiff_release hbp hrp hd
      rcases hS with hs | hs | hs
      · obtain ⟨hma, hmi⟩ := i1 hs
        have hdd := svDiff_of_eq12 hd hma.symm hmi.symm
        have hdp : d = DiffClass.patch := by
          rcases hdd with rfl | rfl | rfl
          · rfl
          · rcases hre with h | h | h <;> cases h
          · rcases hre with h | h | h <;> cases h
        subst hdp
        rw [hs]
        cases isRangePrerelease opts.range || opts.usePre
        · rw [extP_false]; simp
        · rw [extP_true]; simp
      · have hma := i2 hs
        have hdd := svDiff_of_eq1 hd hma.symm
        have hdp : d = DiffClass.minor ∨ d = DiffClass.patch := by
          rcases hdd with rfl | rfl | rfl | rfl | rfl
          · exact Or.inl rfl
          · rcases hre with h | h | h <;> cases h
          · exact Or.inr rfl
          · rcases hre with h | h | h <;> cases h
          · rcases hre with h | h | h <;> cases h
        rw [hs]
        cases isRangePrerelease opts.range || opts.usePre
        · rw [extPM_false]
          rcases hdp with rfl | rfl <;> simp
        · rw [extPM_true]
          rcases hdp with rfl | rfl <;> simp
      · rw [hs]
        cases isRangePrerelease opts.range || opts.usePre
        · rw [extPMM_false]
          rcases hre with rfl | rfl | rfl <;> simp
        · rw [extPMM_true]
          rcases hre with rfl | rfl | rfl <;> simp
    · obtain ⟨hu1, -⟩ := i3 hrp
      rcases hS with hs | hs | hs
      · obtain ⟨hma, hmi⟩ := i1 hs
        have hdd := svDiff_of_eq12 hd hma.symm hmi.symm
        rw [hs, hu1, extP_true]
        rcases hdd with rfl | rfl | rfl <;> simp
      · have hma := i2 hs
        have hdd := svDiff_of_eq1 hd hma.symm
        rw [hs, hu1, extPM_true]
        rcases hdd with rfl | rfl | rfl | rfl | rfl <;> simp
      · rw [hs, hu1, extPMM_true]
        cases d <;> simp

/-- Witness for C1: a patch+minor ceiling selection starting from `^1.2.3`
whose result `1.3.0` carries diff class `minor`, inside the accepted set. -/
theorem findVersion_diff_within_ceiling_witness :
    svDiff ⟨1, 2, 3, []⟩ ⟨1, 3, 0, []⟩ = none ∨
      svDiff ⟨1, 2, 3, []⟩ ⟨1, 3, 0, []⟩ ∈
        (extendSemvers [DiffClass.patch, DiffClass.minor]
          (isRangePrerelease "^1.2.3" || false)).map some :=
  findVersion_diff_within_ceiling
    ⟨[⟨1, 2, 9, []⟩, ⟨1, 3, 0, []⟩, ⟨2, 0, 0, []⟩], none, ⟨2, 0, 0, []⟩⟩
    [⟨1, 2, 9, []⟩, ⟨1, 3, 0, []⟩, ⟨2, 0, 0, []⟩]
    ⟨false, false, false, [DiffClass.patch, DiffClass.minor], "^1.2.3"⟩
    ⟨1, 2, 3, []⟩ ⟨1, 3, 0, []⟩
    (Or.inr (Or.inl rfl)) (by decide) (by decide)

/-- Counterexample to claim C4: in greatest mode (use_greatest, prereleases
allowed, full ceiling, range `^1.2.3`), with versions `1.3.0` then
`1.3.0-beta`, the selector returns `1.3.0-beta` even though `1.3.0`
qualified (it reached the comparison) and `1.3.0-beta` is strictly below it
in full semver comparison: the code compares `semver.coerce` of the
candidate, which drops the prerelease tag, so the returned version is not
greatest under full semver ordering. -/
theorem findVersion_greatest_counterexample :
    findVersion
        ⟨[⟨1, 3, 0, []⟩, ⟨1, 3, 0, [PreId.str ['b', 'e', 't', 'a']]⟩], none, ⟨1, 3, 0, []⟩⟩
        [⟨1, 3, 0, []⟩, ⟨1, 3, 0, [PreId.str ['b', 'e', 't', 'a']]⟩]
        ⟨true, false, true, [DiffClass.patch, DiffClass.minor, DiffClass.major],
          "^1.2.3"⟩
      = some ⟨1, 3, 0, [PreId.str ['b', 'e', 't', 'a']]⟩ ∧
    (⟨1, 3, 0, []⟩ : SemVer) ∈
      comparedVersions
        ⟨[⟨1, 3, 0, []⟩, ⟨1, 3, 0, [PreId.str ['b', 'e', 't', 'a']]⟩], none, ⟨1, 3, 0, []⟩⟩
        ⟨true, false, true, [DiffClass.patch, DiffClass.minor, DiffClass.major],
          "^1.2.3"⟩
        true
        (extendSemvers [DiffClass.patch, DiffClass.minor, DiffClass.major] true)
        [⟨1, 3, 0, []⟩, ⟨1, 3, 0, [PreId.str ['b', 'e', 't', 'a']]⟩]
        ⟨1, 2, 3, []⟩ 0 ∧
    svGte ⟨1, 3, 0, [PreId.str ['b', 'e', 't', 'a']]⟩ ⟨1, 3, 0, []⟩ = false := by
  decide

/-- Claim C4 as amended: in greatest mode (use_greatest, or metadata without
publish times) the selector's result is greatest under the comparison the
code actually performs — `semver.coerce`, which drops prerelease tags: the
coerced result is greater than or equal to the coerced form of the
baseline and of every qualifying (compared) version.  Full semver order,
including prerelease ordering, does not hold (see the counterexample). -/
theorem findVersion_greatest_coerced_max (data : PackageData) (versions : List SemVer)
    (opts : Opts) (b res w : SemVer)
    (hmode : opts.useGreatest = true ∨ data.time = none)
    (hb : rangeToVersion opts.range = some b)
    (hres : findVersion data versions opts = some res)
    (hw : w ∈ comparedVersions data opts (isRangePrerelease opts.range || opts.usePre)
      (extendSemvers opts.semvers (isRangePrerelease opts.range || opts.usePre))
      versions b 0) :
    svGte (coerceV res) (coerceV b) = true ∧ svGte (coerceV res) (coerceV w) = true := by
  unfold findVersion at hres
  rw [hb] at hres
  simp only [Option.some.injEq] at hres
  obtain ⟨h1, h2⟩ := findVersionLoop_coerced_max data opts
    (isRangePrerelease opts.range || opts.usePre)
    (extendSemvers opts.semvers (isRangePrerelease opts.range || opts.usePre))
    hmode versions b 0
  rw [hres] at h1 h2
  exact ⟨h1, h2 w hw⟩

/-- Witness for C4: at the counterexample's input the coerced result
`1.3.0` dominates the coerced forms of the baseline and of the qualifying
release. -/
theorem findVersion_greatest_coerced_max_witness :
    svGte (coerceV ⟨1, 3, 0, [PreId.str ['b', 'e', 't', 'a']]⟩) (coerceV ⟨1, 2, 3, []⟩)
        = true ∧
    svGte (coerceV ⟨1, 3, 0, [PreId.str ['b', 'e', 't', 'a']]⟩) (coerceV ⟨1, 3, 0, []⟩)
        = true :=
  findVersion_greatest_coerced_max
    ⟨[⟨1, 3, 0, []⟩, ⟨1, 3, 0, [PreId.str ['b', 'e', 't', 'a']]⟩], none, ⟨1, 3, 0, []⟩⟩
    [⟨1, 3, 0, []⟩, ⟨1, 3, 0, [PreId.str ['b', 'e', 't', 'a']]⟩]
    ⟨true, false, true, [DiffClass.patch, DiffClass.minor, DiffClass.major], "^1.2.3"⟩
    ⟨1, 2, 3, []⟩ ⟨1, 3, 0, [PreId.str ['b', 'e', 't', 'a']]⟩ ⟨1, 3, 0, []⟩
    (Or.inl rfl) (by decide) (by decide) (by decide)

/-- Claim C6: for every policy and every set of published versions, when the
old range is `"*"` the dependency resolves to "no change": `findNewVersion`
short-circuits to `"*"`, the rewritten range equals the old range, and the
entry is dropped from the result set. -/
theorem wildcard_no_change (data : PackageData) (opts : Opts) (hr : opts.range = "*") :
    findNewVersion data opts = some NewVer.star ∧
    updateRange opts.range (renderNewVer NewVer.star) = opts.range ∧
    resolveDep data opts = none := by
  have h1 : findNewVersion data opts = some NewVer.star := by simp [findNewVersion, hr]
  have h2 : updateRange opts.range (renderNewVer NewVer.star) = opts.range := by
    rw [hr]; decide
  refine ⟨h1, h2, ?_⟩
  simp only [resolveDep, h1]
  rw [if_pos h2.symm]

/-- Witness for C6 at a concrete wildcard dependency. -/
theorem wildcard_no_change_witness :
    findNewVersion ⟨[⟨2, 0, 0, []⟩], none, ⟨2, 0, 0, []⟩⟩
        ⟨false, false, false, [DiffClass.patch, DiffClass.minor, DiffClass.major], "*"⟩
      = some NewVer.star ∧
    updateRange "*" (renderNewVer NewVer.star) = "*" ∧
    resolveDep ⟨[⟨2, 0, 0, []⟩], none, ⟨2, 0, 0, []⟩⟩
        ⟨false, false, false, [DiffClass.patch, DiffClass.minor, DiffClass.major], "*"⟩
      = none :=
  wildcard_no_change _ _ rfl

/-- Claim C7: with old range `^1.2.3`, diff ceiling patch+minor, published
versions `1.2.3, 1.2.9, 1.3.0, 2.0.0` (in ascending publication order, with
ascending publish times), and dist-tag `latest = 2.0.0`, the resolved new
version is `1.3.0`: the major bump is excluded by the ceiling and, because
`latest` oversteps the ceiling, the constrained candidate is returned
instead of the `latest` dist-tag. -/
theorem findNewVersion_minor_ceiling_example :
    findNewVersion
      ⟨[⟨1, 2, 3, []⟩, ⟨1, 2, 9, []⟩, ⟨1, 3, 0, []⟩, ⟨2, 0, 0, []⟩],
        some (fun v =>
          if v = ⟨1, 2, 3, []⟩ then 1
          else if v = ⟨1, 2, 9, []⟩ then 2
          else if v = ⟨1, 3, 0, []⟩ then 3
          else 4),
        ⟨2, 0, 0, []⟩⟩
      ⟨false, false, false, [DiffClass.patch, DiffClass.minor], "^1.2.3"⟩
      = some (NewVer.v ⟨1, 3, 0, []⟩) := by
  decide

/-- Counterexample to claim C2: with old range `1.0.0-beta.1`,
use_prerelease, full ceiling, versions `1.0.0-beta.1, 1.0.0-beta.2, 1.0.0`
in ascending publication order (ascending publish times, `latest = 1.0.0`),
the pipeline resolves to `1.0.0`, not to the claimed `1.0.0-beta.2`: the
selector diffs each candidate against the running candidate, so the release
`1.0.0` qualifies as a `prerelease`-class step from `1.0.0-beta.2` and,
being published last, wins the publish-time tie-break before rule 2 ever
runs. -/
theorem findNewVersion_prerelease_track_counterexample :
    findNewVersion
      ⟨[⟨1, 0, 0, [PreId.str ['b', 'e', 't', 'a'], PreId.num 1]⟩,
        ⟨1, 0, 0, [PreId.str ['b', 'e', 't', 'a'], PreId.num 2]⟩,
        ⟨1, 0, 0, []⟩],
        some (fun v =>
          if v = ⟨1, 0, 0, [PreId.str ['b', 'e', 't', 'a'], PreId.num 1]⟩ then 1
          else if v = ⟨1, 0, 0, [PreId.str ['b', 'e', 't', 'a'], PreId.num 2]⟩ then 2
          else 3),
        ⟨1, 0, 0, []⟩⟩
      ⟨true, false, false, [DiffClass.patch, DiffClass.minor, DiffClass.major],
        "1.0.0-beta.1"⟩
      = some (NewVer.v ⟨1, 0, 0, []⟩) ∧
    some (NewVer.v (⟨1, 0, 0, []⟩ : SemVer))
      ≠ some (NewVer.v ⟨1, 0, 0, [PreId.str ['b', 'e', 't', 'a'], PreId.num 2]⟩) := by
  decide

/-- Claim C2 as amended: rule 2 of the decision chain does take precedence
(use_prerelease without release-only returns the selector's candidate
directly), but the selector's candidate is `1.0.0-beta.2` only when the
release `1.0.0` does not win the running-candidate selection — e.g. when
`1.0.0` appears first in the version list with the earliest publish time.
When `1.0.0` is published after the betas (the counterexample's ascending
order), the selection itself graduates to `1.0.0`. -/
theorem findNewVersion_prerelease_track_amended :
    findNewVersion
      ⟨[⟨1, 0, 0, []⟩,
        ⟨1, 0, 0, [PreId.str ['b', 'e', 't', 'a'], PreId.num 1]⟩,
        ⟨1, 0, 0, [PreId.str ['b', 'e', 't', 'a'], PreId.num 2]⟩],
        some (fun v =>
          if v = ⟨1, 0, 0, []⟩ then 1
          else if v = ⟨1, 0, 0, [PreId.str ['b', 'e', 't', 'a'], PreId.num 1]⟩ then 2
          else 3),
        ⟨1, 0, 0, []⟩⟩
      ⟨true, false, false, [DiffClass.patch, DiffClass.minor, DiffClass.major],
        "1.0.0-beta.1"⟩
      = some (NewVer.v ⟨1, 0, 0, [PreId.str ['b', 'e', 't', 'a'], PreId.num 2]⟩) := by
  decide

/-- Claim C9: every dependency entry in the final result set has a defined
new range that differs from its old range; entries whose new version is
null or whose rewritten range equals the old range have been removed. -/
theorem results_only_changed_entries (items : List (PackageData × Opts))
    (p : String × String) (h : p ∈ runAll items) : p.2 ≠ p.1 := by
  unfold runAll at h
  rw [List.mem_filterMap] at h
  obtain ⟨it, _, heq⟩ := h
  cases hr : resolveDep it.1 it.2 with
  | none => rw [hr] at heq; cases heq
  | some nr =>
    rw [hr] at heq
    simp only [Option.map_some', Option.some.injEq] at heq
    subst heq
    exact resolveDep_some_ne it.1 it.2 nr hr

/-- Witness for C9: a concrete batch emitting `(^1.0.0, ^1.0.1)`. -/
theorem results_only_changed_entries_witness :
    ("^1.0.0", "^1.0.1") ∈
      runAll [(⟨[⟨1, 0, 0, []⟩, ⟨1, 0, 1, []⟩], none, ⟨1, 0, 1, []⟩⟩,
        ⟨false, false, false, [DiffClass.patch, DiffClass.minor, DiffClass.major],
          "^1.0.0"⟩)] ∧
    ("^1.0.0", "^1.0.1").2 ≠ ("^1.0.0", "^1.0.1").1 :=
  ⟨by decide,
    results_only_changed_entries
      [(⟨[⟨1, 0, 0, []⟩, ⟨1, 0, 1, []⟩], none, ⟨1, 0, 1, []⟩⟩,
        ⟨false, false, false, [DiffClass.patch, DiffClass.minor, DiffClass.major],
          "^1.0.0"⟩)]
      ("^1.0.0", "^1.0.1") (by decide)⟩

/-- Claim C10: when use_greatest applies to a package and the range is not
`"*"`, `findNewVersion` returns the selector's candidate directly (none of
the decision rules runs), so the result is independent of the dist-tags:
two metadata snapshots agreeing on versions and publish times resolve to
the same version. -/
theorem useGreatest_ignores_dist_tags (data₁ data₂ : PackageData) (opts : Opts)
    (hg : opts.useGreatest = true) (hr : opts.range ≠ "*")
    (hv : data₁.versions = data₂.versions) (ht : data₁.time = data₂.time) :
    findNewVersion data₁ opts = (findVersion data₁ data₁.versions opts).map NewVer.v ∧
    findNewVersion data₁ opts = findNewVersion data₂ opts := by
  have h1 : ∀ d : PackageData,
      findNewVersion d opts = (findVersion d d.versions opts).map NewVer.v := by
    intro d
    simp [findNewVersion, hr, hg]
  have h2 : findVersion data₁ data₁.versions opts = findVersion data₂ data₂.versions opts := by
    cases hrv : rangeToVersion opts.range with
    | none => simp [findVersion, hrv]
    | some b =>
      simp only [findVersion, hrv]
      rw [hv, findVersionLoop_time_congr data₁ data₂ opts _ _ ht]
  exact ⟨h1 data₁, by rw [h1 data₁, h1 data₂, h2]⟩

/-- Witness for C10: two snapshots differing only in `latest`. -/
theorem useGreatest_ignores_dist_tags_witness :
    findNewVersion ⟨[⟨1, 1, 0, []⟩], none, ⟨1, 1, 0, []⟩⟩
        ⟨false, false, true, [DiffClass.patch, DiffClass.minor, DiffClass.major],
          "^1.0.0"⟩
      = (findVersion ⟨[⟨1, 1, 0, []⟩], none, ⟨1, 1, 0, []⟩⟩ [⟨1, 1, 0, []⟩]
          ⟨false, false, true, [DiffClass.patch, DiffClass.minor, DiffClass.major],
            "^1.0.0"⟩).map NewVer.v ∧
    findNewVersion ⟨[⟨1, 1, 0, []⟩], none, ⟨1, 1, 0, []⟩⟩
        ⟨false, false, true, [DiffClass.patch, DiffClass.minor, DiffClass.major],
          "^1.0.0"⟩
      = findNewVersion ⟨[⟨1, 1, 0, []⟩], none, ⟨9, 9, 9, []⟩⟩
        ⟨false, false, true, [DiffClass.patch, DiffClass.minor, DiffClass.major],
          "^1.0.0"⟩ :=
  useGreatest_ignores_dist_tags
    ⟨[⟨1, 1, 0, []⟩], none, ⟨1, 1, 0, []⟩⟩
    ⟨[⟨1, 1, 0, []⟩], none, ⟨9, 9, 9, []⟩⟩
    ⟨false, false, true, [DiffClass.patch, DiffClass.minor, DiffClass.major], "^1.0.0"⟩
    rfl (by decide) rfl rfl

/-- Claim C5: with use_release_only set, the pipeline never returns a
prerelease version.  (This is stronger than the claim's statement, which
permits returning a prerelease baseline when no qualifying release exists:
the code coerces the baseline through `semver.coerce`, which strips the
prerelease tag, so even that escape hatch yields a release.) -/
theorem findNewVersion_release_only_no_prerelease (data : PackageData) (opts : Opts)
    (res : SemVer) (hrel : opts.useRel = true)
    (h : findNewVersion data opts = some (NewVer.v res)) : res.prerelease = [] := by
  by_cases hstar : opts.range = "*"
  · simp [findNewVersion, hstar] at h
  · cases hfv : findVersion data data.versions opts with
    | none =>
      cases hg : opts.useGreatest <;> simp [findNewVersion, hstar, hfv, hg] at h
    | some version =>
      have hvp : version.prerelease = [] :=
        findVersion_some_prerelease data data.versions opts version hrel hfv
      cases hg : opts.useGreatest with
      | true =>
        simp [findNewVersion, hstar, hfv, hg] at h
        rw [← h]
        exact hvp
      | false =>
        cases hrv : rangeToVersion opts.range with
        | none => simp [findNewVersion, hstar, hfv, hg, hrv] at h
        | some old =>
          simp only [findNewVersion, if_neg hstar, hfv, hg, hrv, Bool.false_eq_true,
            if_false, hrel, hvp, List.isEmpty_nil, Bool.not_true, Bool.not_false,
            Bool.and_false, Bool.false_or, Bool.and_true, Bool.true_and,
            Bool.false_and, Bool.or_false] at h
          split_ifs at h with h3 h4 h5 h7
          · simp only [Option.some.injEq, NewVer.v.injEq] at h
            subst h; exact hvp
          · simp only [Option.some.injEq, NewVer.v.injEq] at h
            subst h; exact hvp
          · split at h
            · split_ifs at h with hcd
              · simp only [Option.some.injEq, NewVer.v.injEq] at h
                subst h; exact hvp
              · simp only [Option.some.injEq, NewVer.v.injEq] at h
                subst h; exact hvp
            · simp only [Option.some.injEq, NewVer.v.injEq] at h
              subst h; exact hvp
          · split at h
            · split_ifs at h with hcd
              · simp only [Option.some.injEq, NewVer.v.injEq] at h
                subst h; exact hvp
              · simp only [Option.some.injEq, NewVer.v.injEq] at h
                subst h
                cases hpre : data.latest.prerelease with
                | nil => rfl
                | cons a l => exact absurd (by simp [hpre]) h7
            · simp only [Option.some.injEq, NewVer.v.injEq] at h
              subst h
              cases hpre : data.latest.prerelease with
              | nil => rfl
              | cons a l => exact absurd (by simp [hpre]) h7

/-- Witness for C5: release-only on a prerelease range graduates to the
release `1.0.1`, a non-prerelease. -/
theorem findNewVersion_release_only_no_prerelease_witness :
    findNewVersion
        ⟨[⟨1, 0, 0, [PreId.str ['b', 'e', 't', 'a'], PreId.num 2]⟩, ⟨1, 0, 1, []⟩],
          none, ⟨1, 0, 1, []⟩⟩
        ⟨false, true, false, [DiffClass.patch, DiffClass.minor, DiffClass.major],
          "1.0.0-beta.1"⟩
      = some (NewVer.v ⟨1, 0, 1, []⟩) ∧
    (⟨1, 0, 1, []⟩ : SemVer).prerelease = [] :=
  ⟨by decide,
    findNewVersion_release_only_no_prerelease
      ⟨[⟨1, 0, 0, [PreId.str ['b', 'e', 't', 'a'], PreId.num 2]⟩, ⟨1, 0, 1, []⟩],
        none, ⟨1, 0, 1, []⟩⟩
      ⟨false, true, false, [DiffClass.patch, DiffClass.minor, DiffClass.major],
        "1.0.0-beta.1"⟩
      ⟨1, 0, 1, []⟩ rfl (by decide)⟩
